import Mathlib

/-!
Verification of the chunked concurrent sorting pipeline (src/main.go).

The program sorts a list of integers by splitting it into contiguous chunks
(splitIntoChunks), sorting each chunk (sortChunksConcurrently, one goroutine
per chunk joined by a WaitGroup), and k-way merging the sorted chunks
(mergeSortedChunks).  Below, each Go function is embedded as a Lean function
over List Int; goroutine scheduling is not modelled (the functional result of
the sort phase is deterministic since each task touches only its own chunk).
Machine ints are modelled as unbounded Int, and the float computation
math.Ceil(math.Sqrt n) as its exact integer counterpart.
-/

/-- Exact model of int(math.Ceil(math.Sqrt(float64 n))) in splitIntoChunks:
the least k with n ≤ k * k. -/
def ceilSqrt (n : Nat) : Nat :=
  if Nat.sqrt n * Nat.sqrt n = n then Nat.sqrt n else Nat.sqrt n + 1

/-- Chunk count chosen by splitIntoChunks (main.go lines 164-167):
numChunks := ceil(sqrt n); if numChunks < 4 then numChunks = 4. -/
def numChunksFor (n : Nat) : Nat :=
  if ceilSqrt n < 4 then 4 else ceilSqrt n

/-- The chunk sizes computed by the loop in splitIntoChunks (lines 170-178):
size i = baseSize plus one extra for i < remainder. -/
def chunkSizes (n k : Nat) : List Nat :=
  (List.range k).map (fun i => n / k + if i < n % k then 1 else 0)

/-- The slicing loop of splitIntoChunks (lines 173-181): chunk i is
numbers[index : index+size], i.e. successive take/drop by the size list. -/
def splitAux : List Int → List Nat → List (List Int)
  | _, [] => []
  | l, s :: ss => l.take s :: splitAux (l.drop s) ss

/-- splitIntoChunks (main.go lines 161-183). -/
def splitIntoChunks (numbers : List Int) : List (List Int) :=
  splitAux numbers (chunkSizes numbers.length (numChunksFor numbers.length))

/-- The function computed by sort.Ints on one chunk: the ascending-sorted
permutation of the chunk (modelled by insertion sort). -/
def sortInts (l : List Int) : List Int :=
  l.insertionSort (· ≤ ·)

/-- sortChunksConcurrently (main.go lines 189-202): each chunk is sorted by
its own goroutine; the WaitGroup barrier makes the observable result the
pointwise sort of the chunk list, independent of scheduling. -/
def sortChunksConcurrently (chunks : List (List Int)) : List (List Int) :=
  chunks.map sortInts

/-- One step of the scanning loop in mergeSortedChunks (lines 217-225):
update the current best (minVal, minChunk) with chunk c at index i.
acc = none models minChunk == -1; a chunk is consultable exactly when its
cursor has not reached its end, i.e. when its remaining suffix is nonempty. -/
def pickMin (acc : Option (Int × Nat)) (c : List Int) (i : Nat) : Option (Int × Nat) :=
  match c with
  | [] => acc
  | v :: _ =>
    match acc with
    | none => some (v, i)
    | some (mv, mj) => if v < mv then some (v, i) else some (mv, mj)

/-- The inner for-loop of mergeSortedChunks (lines 217-225), scanning the
chunks from index i with accumulator acc. -/
def findMinAux : List (List Int) → Nat → Option (Int × Nat) → Option (Int × Nat)
  | [], _, acc => acc
  | c :: cs, i, acc => findMinAux cs (i + 1) (pickMin acc c i)

/-- One full scan of all chunks: returns (minVal, minChunk) or none when
every chunk is exhausted (minChunk stays -1). -/
def findMinChunk (rests : List (List Int)) : Option (Int × Nat) :=
  findMinAux rests 0 none

/-- indices[j]++ (line 232): drop the consumed head of the j-th remaining
suffix. -/
def behead : List (List Int) → Nat → List (List Int)
  | [], _ => []
  | c :: cs, 0 => c.tail :: cs
  | c :: cs, j + 1 => c :: behead cs j

/-- Total number of not-yet-consumed elements across all chunks. -/
def restsMeasure (rests : List (List Int)) : Nat :=
  (rests.map List.length).sum

/-- The unconditional for-loop of mergeSortedChunks (lines 213-233), with
explicit fuel.  Each iteration either breaks (minChunk == -1) or consumes
exactly one element, so fuel restsMeasure is exactly enough; this is proved
below (mergeSortedChunks_length, mergeSortedChunks_perm). -/
def mergeAuxFuel : Nat → List (List Int) → List Int
  | 0, _ => []
  | fuel + 1, rests =>
    match findMinChunk rests with
    | none => []
    | some (v, j) => v :: mergeAuxFuel fuel (behead rests j)

/-- mergeSortedChunks (main.go lines 208-236). -/
def mergeSortedChunks (chunks : List (List Int)) : List Int :=
  mergeAuxFuel (restsMeasure chunks) chunks

/-- The core pipeline applied in processAndPrint (lines 140-155) and in
runDirectory (lines 123-125): split, sort concurrently, merge. -/
def pipeline (numbers : List Int) : List Int :=
  mergeSortedChunks (sortChunksConcurrently (splitIntoChunks numbers))

/-- Contents of the caller-owned backing array after the pipeline runs.
In Go, chunks[i] = numbers[index : index+size] aliases the backing array of
numbers and sort.Ints sorts in place, so after sortChunksConcurrently the
caller-visible sequence is the concatenation of the sorted chunks. -/
def callerArrayAfterPipeline (numbers : List Int) : List Int :=
  (sortChunksConcurrently (splitIntoChunks numbers)).flatten

/-- Model of math/rand Intn: given a stream g of raw random naturals, draw i
is a uniform value in [0, n), modelled as g i % n. -/
def randIntn (g : Nat → Nat) (i : Nat) (n : Nat) : Int :=
  ((g i % n : Nat) : Int)

/-- generateRandomNumbers (main.go lines 242-248): nums[i] = rand.Intn 1000. -/
def generateRandomNumbers (n : Nat) (g : Nat → Nat) : List Int :=
  (List.range n).map (fun i => randIntn g i 1000)

/-- runRandom (main.go lines 54-66): rejects n < 10, otherwise generates the
numbers and runs the pipeline; the model returns the generated sequence
together with the sorted result (both are printed by the Go code). -/
def runRandom (n : Int) (g : Nat → Nat) : Except String (List Int × List Int) :=
  if n < 10 then Except.error "N must be >= 10"
  else
    Except.ok (generateRandomNumbers n.toNat g,
               pipeline (generateRandomNumbers n.toNat g))

/-- Model of strconv.Atoi on a 64-bit platform: optional sign followed by
decimal digits, and none (ErrRange) when the value does not fit in int64,
i.e. when it lies outside [-9223372036854775808, 9223372036854775807]. -/
def atoi (s : String) : Option Int :=
  if s.startsWith "-" then
    ((s.drop 1).toNat?).bind (fun m =>
      if m ≤ 9223372036854775808 then some (-(m : Int)) else none)
  else if s.startsWith "+" then
    ((s.drop 1).toNat?).bind (fun m =>
      if m ≤ 9223372036854775807 then some ((m : Int)) else none)
  else
    (s.toNat?).bind (fun m =>
      if m ≤ 9223372036854775807 then some ((m : Int)) else none)

/-- readNumbersFromFile (main.go lines 250-273) on the list of lines of the
file: trims each line, skips blank lines, fails on the first line that does
not parse as an integer. -/
def readNumbersFromFile : List String → Except String (List Int)
  | [] => Except.ok []
  | line :: rest =>
    if line.trim = "" then readNumbersFromFile rest
    else
      match atoi line.trim with
      | none => Except.error ("invalid integer: " ++ line.trim)
      | some v => (readNumbersFromFile rest).map (fun ns => v :: ns)

/-- runInputFile (main.go lines 72-87): read the file, require at least 10
integers, run the pipeline. -/
def runInputFile (lines : List String) : Except String (List Int) :=
  match readNumbersFromFile lines with
  | Except.error e => Except.error e
  | Except.ok numbers =>
    if numbers.length < 10 then
      Except.error "input file must contain at least 10 valid integers"
    else Except.ok (pipeline numbers)

/-- runDirectory (main.go lines 93-134) on the directory contents, each file
a (name, lines) pair: process .txt files in order (filepath.Ext f = ".txt"
iff the name ends with ".txt"), abort the whole batch at the first failing
file.  Returns the output files written (sorted result per input file kept
on disk even if a later file aborts the batch) and the error, if any. -/
def runDirectory : List (String × List String) → List (String × List Int) × Option String
  | [] => ([], none)
  | (name, lines) :: rest =>
    if name.endsWith ".txt" then
      match readNumbersFromFile lines with
      | Except.error e => ([], some e)
      | Except.ok numbers =>
        if numbers.length < 10 then ([], some (name ++ " has fewer than 10 numbers"))
        else
          ((name, pipeline numbers) :: (runDirectory rest).1, (runDirectory rest).2)
    else runDirectory rest

/-! ### Lemmas about the chunk partitioner -/

theorem numChunksFor_pos (n : Nat) : 0 < numChunksFor n := by
  unfold numChunksFor; split <;> omega

theorem four_le_numChunksFor (n : Nat) : 4 ≤ numChunksFor n := by
  unfold numChunksFor; split <;> omega

theorem sum_chunkSizes_aux (b m : Nat) :
    ∀ k, ((List.range k).map (fun i => b + if i < m then 1 else 0)).sum = k * b + min k m := by
  intro k
  induction k with
  | zero => simp
  | succ k ih =>
    rw [List.range_succ, List.map_append, List.sum_append, ih, Nat.succ_mul]
    simp only [List.map_cons, List.map_nil, List.sum_cons, List.sum_nil]
    by_cases h : k < m <;> simp only [h, if_true, if_false] <;>
      (generalize k * b = K) <;> omega

theorem sum_chunkSizes (n k : Nat) (hk : 0 < k) : (chunkSizes n k).sum = n := by
  unfold chunkSizes
  rw [sum_chunkSizes_aux (n / k) (n % k) k]
  have h1 : n % k < k := Nat.mod_lt n hk
  have h2 : min k (n % k) = n % k := Nat.min_eq_right (Nat.le_of_lt h1)
  rw [h2]
  exact Nat.div_add_mod n k

theorem length_chunkSizes (n k : Nat) : (chunkSizes n k).length = k := by
  simp [chunkSizes]

theorem length_splitAux : ∀ (sizes : List Nat) (l : List Int),
    (splitAux l sizes).length = sizes.length
  | [], _ => rfl
  | s :: ss, l => by simp [splitAux, length_splitAux ss]

theorem flatten_splitAux : ∀ (sizes : List Nat) (l : List Int),
    (splitAux l sizes).flatten = l.take sizes.sum
  | [], l => by simp [splitAux]
  | s :: ss, l => by
    simp only [splitAux, List.flatten_cons, flatten_splitAux ss, List.sum_cons]
    exact (List.take_add l s ss.sum).symm

theorem map_length_splitAux : ∀ (sizes : List Nat) (l : List Int),
    sizes.sum ≤ l.length → (splitAux l sizes).map List.length = sizes
  | [], _, _ => rfl
  | s :: ss, l, h => by
    have hsum : s + ss.sum ≤ l.length := by simpa using h
    simp only [splitAux, List.map_cons]
    rw [List.length_take_of_le (by omega),
        map_length_splitAux ss (l.drop s) (by rw [List.length_drop]; omega)]

theorem sum_chunkSizes_split (l : List Int) :
    (chunkSizes l.length (numChunksFor l.length)).sum = l.length :=
  sum_chunkSizes _ _ (numChunksFor_pos _)

theorem flatten_splitIntoChunks (l : List Int) : (splitIntoChunks l).flatten = l := by
  unfold splitIntoChunks
  rw [flatten_splitAux, sum_chunkSizes_split, List.take_length]

theorem length_splitIntoChunks (l : List Int) :
    (splitIntoChunks l).length = numChunksFor l.length := by
  unfold splitIntoChunks
  rw [length_splitAux, length_chunkSizes]

theorem map_length_splitIntoChunks (l : List Int) :
    (splitIntoChunks l).map List.length = chunkSizes l.length (numChunksFor l.length) := by
  unfold splitIntoChunks
  exact map_length_splitAux _ _ (le_of_eq (sum_chunkSizes_split l))

/-! ### Lemmas about the scanning loop of the merge -/

theorem pickMin_eq_none {acc : Option (Int × Nat)} {c : List Int} {i : Nat}
    (h : pickMin acc c i = none) : acc = none ∧ c = [] := by
  cases c with
  | nil => exact ⟨h, rfl⟩
  | cons v t =>
    cases acc with
    | none => simp [pickMin] at h
    | some p =>
      rcases p with ⟨mv, mj⟩
      by_cases hv : v < mv <;> simp [pickMin, hv] at h

theorem pickMin_cases (acc : Option (Int × Nat)) (c : List Int) (i : Nat) :
    pickMin acc c i = acc ∨ ∃ v t, c = v :: t ∧ pickMin acc c i = some (v, i) := by
  cases c with
  | nil => exact Or.inl rfl
  | cons v t =>
    cases acc with
    | none => exact Or.inr ⟨v, t, rfl, rfl⟩
    | some p =>
      rcases p with ⟨mv, mj⟩
      by_cases hv : v < mv
      · exact Or.inr ⟨v, t, rfl, by simp [pickMin, hv]⟩
      · exact Or.inl (by simp [pickMin, hv])

theorem pickMin_le {acc : Option (Int × Nat)} {c : List Int} {i : Nat} {w : Int} {j' : Nat}
    (h : pickMin acc c i = some (w, j')) :
    (∀ mv mj, acc = some (mv, mj) → w ≤ mv) ∧ (∀ x t, c = x :: t → w ≤ x) := by
  cases c with
  | nil =>
    have h' : acc = some (w, j') := h
    constructor
    · intro mv mj hacc
      rw [hacc] at h'
      obtain ⟨h1, h2⟩ : mv = w ∧ mj = j' := by simpa using h'
      omega
    · intro x t ht
      cases ht
  | cons x t =>
    constructor
    · intro mv mj hacc
      subst hacc
      by_cases hv : x < mv <;> simp [pickMin, hv] at h <;> omega
    · intro x' t' hx
      have hxx : x = x' := by injection hx
      rw [← hxx]
      cases acc with
      | none =>
        obtain ⟨rfl, rfl⟩ : x = w ∧ i = j' := by simpa [pickMin] using h
        omega
      | some p =>
        rcases p with ⟨mv, mj⟩
        by_cases hv : x < mv <;> simp [pickMin, hv] at h <;> omega

theorem pickMin_isSome {acc : Option (Int × Nat)} (c : List Int) (i : Nat) {mv : Int} {mj : Nat}
    (h : acc = some (mv, mj)) : ∃ w j', pickMin acc c i = some (w, j') := by
  subst h
  cases c with
  | nil => exact ⟨mv, mj, rfl⟩
  | cons x t =>
    by_cases hv : x < mv
    · exact ⟨x, i, by simp [pickMin, hv]⟩
    · exact ⟨mv, mj, by simp [pickMin, hv]⟩

theorem pickMin_idx {acc : Option (Int × Nat)} {c : List Int} {i : Nat} {w : Int} {j' : Nat}
    (h : pickMin acc c i = some (w, j')) : j' = i ∨ acc = some (w, j') := by
  rcases pickMin_cases acc c i with heq | ⟨v, t, _, hval⟩
  · rw [heq] at h
    exact Or.inr h
  · rw [hval] at h
    obtain ⟨rfl, rfl⟩ : v = w ∧ i = j' := by simpa using h
    exact Or.inl rfl

theorem findMinAux_eq_none : ∀ (cs : List (List Int)) (i : Nat) (acc : Option (Int × Nat)),
    findMinAux cs i acc = none → acc = none ∧ ∀ c ∈ cs, c = []
  | [], _, _, h => ⟨h, by simp⟩
  | c :: cs, i, acc, h => by
    simp only [findMinAux] at h
    have ih := findMinAux_eq_none cs (i + 1) (pickMin acc c i) h
    have hp := pickMin_eq_none ih.1
    refine ⟨hp.1, ?_⟩
    intro x hx
    rcases List.mem_cons.mp hx with h1 | h2
    · rw [h1]; exact hp.2
    · exact ih.2 x h2

theorem findMinAux_decomp : ∀ (cs : List (List Int)) (i : Nat) (acc : Option (Int × Nat))
    (v : Int) (j : Nat), findMinAux cs i acc = some (v, j) →
    acc = some (v, j) ∨ ∃ A t B, cs = A ++ (v :: t) :: B ∧ j = i + A.length
  | [], _, _, _, _, h => Or.inl h
  | c :: cs, i, acc, v, j, h => by
    simp only [findMinAux] at h
    rcases findMinAux_decomp cs (i + 1) (pickMin acc c i) v j h with hpick | ⟨A, t, B, hcs, hj⟩
    · rcases pickMin_cases acc c i with heq | ⟨w, t, hct, hval⟩
      · rw [heq] at hpick
        exact Or.inl hpick
      · rw [hval] at hpick
        obtain ⟨rfl, rfl⟩ : w = v ∧ i = j := by simpa using hpick
        exact Or.inr ⟨[], t, cs, by simp [hct], by simp⟩
    · refine Or.inr ⟨c :: A, t, B, by simp [hcs], ?_⟩
      simp only [List.length_cons]
      omega

theorem findMinAux_le : ∀ (cs : List (List Int)) (i : Nat) (acc : Option (Int × Nat))
    (v : Int) (j : Nat), findMinAux cs i acc = some (v, j) →
    (∀ mv mj, acc = some (mv, mj) → v ≤ mv) ∧ (∀ c ∈ cs, ∀ x t, c = x :: t → v ≤ x)
  | [], _, acc, v, j, h => by
    constructor
    · intro mv mj hacc
      rw [hacc] at h
      obtain ⟨h1, h2⟩ : mv = v ∧ mj = j := by simpa [findMinAux] using h
      omega
    · simp
  | c :: cs, i, acc, v, j, h => by
    simp only [findMinAux] at h
    have ih := findMinAux_le cs (i + 1) (pickMin acc c i) v j h
    constructor
    · intro mv mj hacc
      obtain ⟨w, j', hp⟩ := pickMin_isSome c i hacc
      have h1 := ih.1 w j' hp
      have h2 := (pickMin_le hp).1 mv mj hacc
      omega
    · intro c' hc' x t hct
      rcases List.mem_cons.mp hc' with rfl | hmem
      · subst hct
        obtain ⟨w, j', hp⟩ : ∃ w j', pickMin acc (x :: t) i = some (w, j') := by
          cases acc with
          | none => exact ⟨x, i, rfl⟩
          | some p =>
            rcases p with ⟨mv, mj⟩
            exact pickMin_isSome _ _ rfl
        have h1 := ih.1 w j' hp
        have h2 := (pickMin_le hp).2 x t rfl
        omega
      · exact ih.2 c' hmem x t hct

theorem findMinAux_first : ∀ (cs : List (List Int)) (i : Nat) (acc : Option (Int × Nat))
    (v : Int) (j : Nat),
    (∀ mv mj, acc = some (mv, mj) → mj < i) →
    findMinAux cs i acc = some (v, j) →
    (acc = some (v, j) ∨ ∀ mv mj, acc = some (mv, mj) → v < mv) ∧
    (∀ k x t, i ≤ k → k < j → cs.getD (k - i) [] = x :: t → v < x)
  | [], _, acc, v, j, _, h => by
    refine ⟨Or.inl h, ?_⟩
    intro k x t _ _ hx
    rw [List.getD_nil] at hx
    cases hx
  | c :: cs, i, acc, v, j, hacc, h => by
    simp only [findMinAux] at h
    have hacc' : ∀ mv mj, pickMin acc c i = some (mv, mj) → mj < i + 1 := by
      intro mv mj hp
      rcases pickMin_idx hp with rfl | heq
      · omega
      · have := hacc mv mj heq
        omega
    have ih := findMinAux_first cs (i + 1) (pickMin acc c i) v j hacc' h
    constructor
    · rcases pickMin_cases acc c i with hpe | ⟨w, t0, hct, hpe⟩
      · rw [hpe] at ih
        exact ih.1
      · rw [hpe] at ih
        rcases ih.1 with heq | hlt
        · obtain ⟨hw, hj⟩ : w = v ∧ i = j := by simpa using heq
          right
          intro mv mj hs
          rw [hs, hct] at hpe
          by_cases hv : w < mv
          · omega
          · simp only [pickMin, hv, if_false] at hpe
            obtain ⟨h1, h2⟩ : mv = w ∧ mj = i := by simpa using hpe
            have := hacc mv mj hs
            omega
        · right
          intro mv mj hs
          have hvw : v < w := hlt w i rfl
          have hwm := (pickMin_le hpe).1 mv mj hs
          omega
    · intro k x t hik hkj hx
      by_cases hik0 : k = i
      · subst hik0
        rw [Nat.sub_self, List.getD_cons_zero] at hx
        obtain ⟨w, j', hp⟩ : ∃ w j', pickMin acc c k = some (w, j') := by
          rw [hx]
          cases acc with
          | none => exact ⟨x, k, rfl⟩
          | some p =>
            rcases p with ⟨mv, mj⟩
            exact pickMin_isSome _ _ rfl
        rw [hp] at ih
        have hwx : w ≤ x := (pickMin_le hp).2 x t hx
        rcases ih.1 with heq | hlt2
        · obtain ⟨hw, hj⟩ : w = v ∧ j' = j := by simpa using heq
          rcases pickMin_idx hp with hji | hae
          · omega
          · have := hacc w j' hae
            omega
        · have := hlt2 w j' rfl
          omega
      · have hsub : k - i = (k - (i + 1)) + 1 := by omega
        rw [hsub, List.getD_cons_succ] at hx
        exact ih.2 k x t (by omega) hkj hx

theorem findMinChunk_none {rests : List (List Int)} (h : findMinChunk rests = none) :
    ∀ c ∈ rests, c = [] :=
  (findMinAux_eq_none rests 0 none h).2

theorem findMinChunk_decomp {rests : List (List Int)} {v : Int} {j : Nat}
    (h : findMinChunk rests = some (v, j)) :
    ∃ A t B, rests = A ++ (v :: t) :: B ∧ j = A.length := by
  rcases findMinAux_decomp rests 0 none v j h with h1 | ⟨A, t, B, h1, h2⟩
  · cases h1
  · exact ⟨A, t, B, h1, by omega⟩

theorem findMinChunk_le_heads {rests : List (List Int)} {v : Int} {j : Nat}
    (h : findMinChunk rests = some (v, j)) :
    ∀ c ∈ rests, ∀ x t, c = x :: t → v ≤ x :=
  (findMinAux_le rests 0 none v j h).2

theorem findMinChunk_lt_before {rests : List (List Int)} {v : Int} {j : Nat}
    (h : findMinChunk rests = some (v, j)) :
    ∀ k x t, k < j → rests.getD k [] = x :: t → v < x := by
  intro k x t hk hx
  have hfst := (findMinAux_first rests 0 none v j (by simp) h).2 k x t (Nat.zero_le k) hk
  exact hfst (by simpa using hx)

/-! ### Lemmas about the merge loop -/

theorem behead_append : ∀ (A : List (List Int)) (c : List Int) (B : List (List Int)),
    behead (A ++ c :: B) A.length = A ++ c.tail :: B
  | [], _, _ => rfl
  | a :: A, c, B => by
    show behead (a :: (A ++ c :: B)) (A.length + 1) = a :: (A ++ c.tail :: B)
    simp only [behead]
    rw [behead_append A c B]

theorem restsMeasure_split (A : List (List Int)) (c : List Int) (B : List (List Int)) :
    restsMeasure (A ++ c :: B) = restsMeasure A + c.length + restsMeasure B := by
  simp only [restsMeasure, List.map_append, List.sum_append, List.map_cons, List.sum_cons]
  omega

theorem restsMeasure_eq_zero {rests : List (List Int)} (h : ∀ c ∈ rests, c = []) :
    restsMeasure rests = 0 :=
  List.sum_eq_zero (by
    intro x hx
    rcases List.mem_map.mp hx with ⟨c, hc, rfl⟩
    rw [h c hc]
    rfl)

theorem flatten_eq_nil_of_measure {rests : List (List Int)} (h : restsMeasure rests = 0) :
    rests.flatten = [] :=
  List.eq_nil_of_length_eq_zero (by rw [List.length_flatten]; exact h)

theorem mergeAuxFuel_none {rests : List (List Int)} (fuel : Nat)
    (hf : findMinChunk rests = none) : mergeAuxFuel fuel rests = [] := by
  cases fuel with
  | zero => rfl
  | succ fuel => simp only [mergeAuxFuel, hf]

theorem mergeAuxFuel_succ {rests : List (List Int)} {v : Int} {j : Nat} (fuel : Nat)
    (hf : findMinChunk rests = some (v, j)) :
    mergeAuxFuel (fuel + 1) rests = v :: mergeAuxFuel fuel (behead rests j) := by
  simp only [mergeAuxFuel, hf]

theorem mergeAuxFuel_perm : ∀ (fuel : Nat) (rests : List (List Int)),
    restsMeasure rests ≤ fuel → List.Perm (mergeAuxFuel fuel rests) rests.flatten
  | 0, rests, h => by
    rw [flatten_eq_nil_of_measure (Nat.le_zero.mp h)]
    exact List.Perm.refl _
  | fuel + 1, rests, h => by
    cases hf : findMinChunk rests with
    | none =>
      rw [mergeAuxFuel_none _ hf,
          flatten_eq_nil_of_measure (restsMeasure_eq_zero (findMinChunk_none hf))]
    | some p =>
      rcases p with ⟨v, j⟩
      rw [mergeAuxFuel_succ fuel hf]
      obtain ⟨A, t, B, hre, hj⟩ := findMinChunk_decomp hf
      subst hj
      subst hre
      rw [behead_append, List.tail_cons]
      have h1 := restsMeasure_split A (v :: t) B
      have h2 := restsMeasure_split A t B
      have hm : restsMeasure (A ++ t :: B) ≤ fuel := by
        simp only [List.length_cons] at h1
        omega
      refine ((mergeAuxFuel_perm fuel (A ++ t :: B) hm).cons v).trans ?_
      have hfl : (A ++ t :: B).flatten = A.flatten ++ (t ++ B.flatten) := by simp
      have hfl2 : (A ++ (v :: t) :: B).flatten = A.flatten ++ (v :: (t ++ B.flatten)) := by simp
      rw [hfl, hfl2]
      exact List.perm_middle.symm

theorem mergeSortedChunks_perm (chunks : List (List Int)) :
    List.Perm (mergeSortedChunks chunks) chunks.flatten :=
  mergeAuxFuel_perm (restsMeasure chunks) chunks (Nat.le_refl _)

theorem mergeSortedChunks_length (chunks : List (List Int)) :
    (mergeSortedChunks chunks).length = (chunks.map List.length).sum :=
  (mergeSortedChunks_perm chunks).length_eq.trans (List.length_flatten chunks)

theorem sorted_flatten_lower {rests : List (List Int)} {v : Int}
    (hsort : ∀ c ∈ rests, List.Sorted (· ≤ ·) c)
    (hmin : ∀ c ∈ rests, ∀ x t, c = x :: t → v ≤ x) :
    ∀ b ∈ rests.flatten, v ≤ b := by
  intro b hb
  rcases List.mem_flatten.mp hb with ⟨c, hc, hbc⟩
  cases c with
  | nil => simp at hbc
  | cons x t =>
    have hvx := hmin _ hc x t rfl
    rcases List.mem_cons.mp hbc with rfl | hbt
    · exact hvx
    · exact le_trans hvx (List.rel_of_sorted_cons (hsort _ hc) b hbt)

theorem mergeAuxFuel_sorted : ∀ (fuel : Nat) (rests : List (List Int)),
    restsMeasure rests ≤ fuel → (∀ c ∈ rests, List.Sorted (· ≤ ·) c) →
    List.Sorted (· ≤ ·) (mergeAuxFuel fuel rests)
  | 0, _, _, _ => List.sorted_nil
  | fuel + 1, rests, h, hsort => by
    cases hf : findMinChunk rests with
    | none =>
      rw [mergeAuxFuel_none _ hf]
      exact List.sorted_nil
    | some p =>
      rcases p with ⟨v, j⟩
      rw [mergeAuxFuel_succ fuel hf]
      obtain ⟨A, t, B, hre, hj⟩ := findMinChunk_decomp hf
      subst hj
      subst hre
      rw [behead_append, List.tail_cons]
      have h1 := restsMeasure_split A (v :: t) B
      have h2 := restsMeasure_split A t B
      have hm : restsMeasure (A ++ t :: B) ≤ fuel := by
        simp only [List.length_cons] at h1
        omega
      have hsort2 : ∀ c ∈ A ++ t :: B, List.Sorted (· ≤ ·) c := by
        intro c hc
        rcases List.mem_append.mp hc with hA | hB
        · exact hsort c (List.mem_append_left _ hA)
        · rcases List.mem_cons.mp hB with rfl | hB2
          · exact (hsort (v :: c) (by simp)).of_cons
          · exact hsort c (by simp [hB2])
      rw [List.sorted_cons]
      constructor
      · intro b hb
        have hbmem : b ∈ (A ++ t :: B).flatten :=
          (mergeAuxFuel_perm fuel _ hm).mem_iff.mp hb
        have hmin := findMinChunk_le_heads hf
        have hmin2 : ∀ c ∈ A ++ t :: B, ∀ x t2, c = x :: t2 → v ≤ x := by
          intro c hc x t2 hct
          rcases List.mem_append.mp hc with hA | hB
          · exact hmin c (List.mem_append_left _ hA) x t2 hct
          · rcases List.mem_cons.mp hB with rfl | hB2
            · subst hct
              exact List.rel_of_sorted_cons (hsort (v :: x :: t2) (by simp)) x (by simp)
            · exact hmin c (by simp [hB2]) x t2 hct
        exact sorted_flatten_lower hsort2 hmin2 b hbmem
      · exact mergeAuxFuel_sorted fuel (A ++ t :: B) hm hsort2

theorem mergeSortedChunks_sorted (chunks : List (List Int))
    (h : ∀ c ∈ chunks, List.Sorted (· ≤ ·) c) :
    List.Sorted (· ≤ ·) (mergeSortedChunks chunks) :=
  mergeAuxFuel_sorted _ _ (Nat.le_refl _) h

theorem mergeSortedChunks_step {rests : List (List Int)} {v : Int} {j : Nat}
    (hf : findMinChunk rests = some (v, j)) :
    mergeSortedChunks rests = v :: mergeSortedChunks (behead rests j) := by
  obtain ⟨A, t, B, hre, hj⟩ := findMinChunk_decomp hf
  subst hj
  subst hre
  have h1 := restsMeasure_split A (v :: t) B
  have h2 := restsMeasure_split A t B
  have hm : restsMeasure (A ++ (v :: t) :: B) = restsMeasure (A ++ t :: B) + 1 := by
    simp only [List.length_cons] at h1
    omega
  unfold mergeSortedChunks
  rw [behead_append, List.tail_cons, hm, mergeAuxFuel_succ _ hf, behead_append, List.tail_cons]

/-! ### Pipeline-level lemmas -/

theorem sortInts_perm (l : List Int) : List.Perm (sortInts l) l :=
  List.perm_insertionSort _ l

theorem sortInts_sorted (l : List Int) : List.Sorted (· ≤ ·) (sortInts l) :=
  List.sorted_insertionSort _ l

theorem sortInts_eq_of_sorted {l : List Int} (h : List.Sorted (· ≤ ·) l) : sortInts l = l :=
  List.eq_of_perm_of_sorted (sortInts_perm l) (sortInts_sorted l) h

theorem flatten_sortChunks_perm (cs : List (List Int)) :
    List.Perm (sortChunksConcurrently cs).flatten cs.flatten := by
  induction cs with
  | nil => exact List.Perm.refl _
  | cons c cs ih =>
    simp only [sortChunksConcurrently, List.map_cons, List.flatten_cons] at ih ⊢
    exact (sortInts_perm c).append ih

theorem pipeline_perm (l : List Int) : List.Perm (pipeline l) l := by
  unfold pipeline
  refine (mergeSortedChunks_perm _).trans ?_
  refine (flatten_sortChunks_perm _).trans ?_
  rw [flatten_splitIntoChunks]

theorem pipeline_sorted (l : List Int) : List.Sorted (· ≤ ·) (pipeline l) := by
  unfold pipeline
  refine mergeSortedChunks_sorted _ ?_
  intro c hc
  simp only [sortChunksConcurrently, List.mem_map] at hc
  rcases hc with ⟨c0, _, rfl⟩
  exact sortInts_sorted c0

theorem pipeline_length (l : List Int) : (pipeline l).length = l.length :=
  (pipeline_perm l).length_eq

theorem pipeline_eq_of_sorted {l : List Int} (h : List.Sorted (· ≤ ·) l) : pipeline l = l :=
  List.eq_of_perm_of_sorted (pipeline_perm l) (pipeline_sorted l) h

theorem callerArrayAfterPipeline_perm (l : List Int) :
    List.Perm (callerArrayAfterPipeline l) l := by
  unfold callerArrayAfterPipeline
  refine (flatten_sortChunks_perm _).trans ?_
  rw [flatten_splitIntoChunks]

/-! ### Evaluating the chunk-count formula at concrete sizes -/

theorem numChunksFor_eq_max (n : Nat) : numChunksFor n = max 4 (ceilSqrt n) := by
  unfold numChunksFor
  by_cases h : ceilSqrt n < 4
  · rw [if_pos h]; omega
  · rw [if_neg h]; omega

theorem ceilSqrt_eval {n a : Nat} (h1 : a * a ≤ n) (h2 : n < (a + 1) * (a + 1)) :
    ceilSqrt n = if a * a = n then a else a + 1 := by
  have hs : Nat.sqrt n = a := (Nat.eq_sqrt.mpr ⟨h1, h2⟩).symm
  unfold ceilSqrt
  rw [hs]

theorem numChunksFor_ten : numChunksFor 10 = 4 := by
  have h : ceilSqrt 10 = 4 := by
    rw [ceilSqrt_eval (a := 3) (by norm_num) (by norm_num)]
    norm_num
  unfold numChunksFor
  rw [h]
  norm_num

theorem numChunksFor_hundred : numChunksFor 100 = 10 := by
  have h : ceilSqrt 100 = 10 := by
    rw [ceilSqrt_eval (a := 10) (by norm_num) (by norm_num)]
    norm_num
  unfold numChunksFor
  rw [h]
  norm_num

theorem numChunksFor_five : numChunksFor 5 = 4 := by
  have h : ceilSqrt 5 = 3 := by
    rw [ceilSqrt_eval (a := 2) (by norm_num) (by norm_num)]
    norm_num
  unfold numChunksFor
  rw [h]
  norm_num

/-! ### Lemmas about the file-reading front end -/

theorem except_map_error {r : Except String (List Int)} {f : List Int → List Int} {e : String} :
    r.map f = Except.error e ↔ r = Except.error e := by
  cases r <;> simp [Except.map]

theorem except_map_ok {r : Except String (List Int)} {f : List Int → List Int} {b : List Int} :
    r.map f = Except.ok b ↔ ∃ a, r = Except.ok a ∧ b = f a := by
  cases r with
  | error e => simp [Except.map]
  | ok a =>
    simp only [Except.map, Except.ok.injEq]
    constructor
    · intro h
      exact ⟨a, rfl, h.symm⟩
    · rintro ⟨a2, ha, hb⟩
      obtain rfl : a = a2 := ha
      exact hb.symm

theorem readNumbersFromFile_error_iff : ∀ lines : List String,
    (∃ e, readNumbersFromFile lines = Except.error e) ↔
      ∃ l ∈ lines, l.trim ≠ "" ∧ atoi l.trim = none
  | [] => by simp [readNumbersFromFile]
  | line :: rest => by
    by_cases hb : line.trim = ""
    · simp only [readNumbersFromFile, if_pos hb]
      rw [readNumbersFromFile_error_iff rest]
      constructor
      · rintro ⟨l, hl, h1, h2⟩
        exact ⟨l, List.mem_cons_of_mem _ hl, h1, h2⟩
      · rintro ⟨l, hl, h1, h2⟩
        rcases List.mem_cons.mp hl with rfl | hl2
        · exact absurd hb h1
        · exact ⟨l, hl2, h1, h2⟩
    · simp only [readNumbersFromFile, if_neg hb]
      cases ha : atoi line.trim with
      | none =>
        constructor
        · intro _
          exact ⟨line, List.mem_cons_self _ _, hb, ha⟩
        · intro _
          exact ⟨"invalid integer: " ++ line.trim, rfl⟩
      | some v =>
        constructor
        · rintro ⟨e, he⟩
          have he2 : readNumbersFromFile rest = Except.error e := except_map_error.mp he
          obtain ⟨l, hl, h1, h2⟩ := (readNumbersFromFile_error_iff rest).mp ⟨e, he2⟩
          exact ⟨l, List.mem_cons_of_mem _ hl, h1, h2⟩
        · rintro ⟨l, hl, h1, h2⟩
          rcases List.mem_cons.mp hl with rfl | hl2
          · exact absurd (ha.symm.trans h2) (by simp)
          · obtain ⟨e, he⟩ := (readNumbersFromFile_error_iff rest).mpr ⟨l, hl2, h1, h2⟩
            exact ⟨e, except_map_error.mpr he⟩

theorem readNumbersFromFile_ok : ∀ (lines : List String) (nums : List Int),
    readNumbersFromFile lines = Except.ok nums →
    nums = lines.filterMap (fun l => if l.trim = "" then none else atoi l.trim)
  | [], nums, h => by
    simp only [readNumbersFromFile, Except.ok.injEq] at h
    rw [← h]
    rfl
  | line :: rest, nums, h => by
    by_cases hb : line.trim = ""
    · simp only [readNumbersFromFile, if_pos hb] at h
      rw [List.filterMap_cons]
      simp only [hb, if_true]
      exact readNumbersFromFile_ok rest nums h
    · simp only [readNumbersFromFile, if_neg hb] at h
      cases ha : atoi line.trim with
      | none =>
        simp only [ha] at h
        simp at h
      | some v =>
        simp only [ha] at h
        obtain ⟨ns, hns, rfl⟩ := except_map_ok.mp h
        rw [List.filterMap_cons]
        simp only [if_neg hb, ha]
        rw [readNumbersFromFile_ok rest ns hns]

theorem runInputFile_short {lines : List String} {nums : List Int}
    (h : readNumbersFromFile lines = Except.ok nums) (hlen : nums.length < 10) :
    runInputFile lines = Except.error "input file must contain at least 10 valid integers" := by
  unfold runInputFile
  simp only [h, if_pos hlen]

theorem runInputFile_error {lines : List String} {e : String}
    (h : readNumbersFromFile lines = Except.error e) :
    runInputFile lines = Except.error e := by
  unfold runInputFile
  simp only [h]

theorem runDirectory_outputs : ∀ (files : List (String × List String)) (name : String)
    (out : List Int), (name, out) ∈ (runDirectory files).1 →
    ∃ lines nums, (name, lines) ∈ files ∧ readNumbersFromFile lines = Except.ok nums ∧
      10 ≤ nums.length ∧ out = pipeline nums
  | [], name, out, h => by simp [runDirectory] at h
  | (fname, flines) :: rest, name, out, h => by
    simp only [runDirectory] at h
    by_cases he : fname.endsWith ".txt"
    · rw [if_pos he] at h
      cases hr : readNumbersFromFile flines with
      | error e =>
        simp only [hr] at h
        simp at h
      | ok nums =>
        simp only [hr] at h
        by_cases hlen : nums.length < 10
        · rw [if_pos hlen] at h
          simp at h
        · rw [if_neg hlen] at h
          simp only [List.mem_cons] at h
          rcases h with heq | hmem
          · obtain ⟨rfl, rfl⟩ : name = fname ∧ out = pipeline nums := by
              simpa using heq
            exact ⟨flines, nums, List.mem_cons_self _ _, hr, by omega, rfl⟩
          · obtain ⟨lines, nums2, hin, hread, hlen2, hout⟩ :=
              runDirectory_outputs rest name out hmem
            exact ⟨lines, nums2, List.mem_cons_of_mem _ hin, hread, hlen2, hout⟩
    · rw [if_neg he] at h
      obtain ⟨lines, nums2, hin, hread, hlen2, hout⟩ := runDirectory_outputs rest name out h
      exact ⟨lines, nums2, List.mem_cons_of_mem _ hin, hread, hlen2, hout⟩

/-! ### Remaining small helpers -/

theorem head?_some_ex {l : List Int} {x : Int} (h : l.head? = some x) : ∃ t, l = x :: t := by
  cases l with
  | nil => cases h
  | cons y t =>
    obtain rfl : y = x := by simpa using h
    exact ⟨t, rfl⟩

theorem getD_append_length : ∀ (A : List (List Int)) (c : List Int) (B : List (List Int)),
    (A ++ c :: B).getD A.length [] = c
  | [], _, _ => rfl
  | a :: A, c, B => by
    show (a :: (A ++ c :: B)).getD (A.length + 1) [] = c
    rw [List.getD_cons_succ]
    exact getD_append_length A c B

theorem length_getD_split (cs : List (List Int)) (i : Nat) :
    (cs.getD i []).length = (cs.map List.length).getD i 0 := by
  induction cs generalizing i with
  | nil => simp
  | cons c cs ih =>
    cases i with
    | zero => simp
    | succ i => simpa using ih i

theorem chunkSizes_getD (n k i : Nat) (hi : i < k) :
    (chunkSizes n k).getD i 0 = n / k + (if i < n % k then 1 else 0) := by
  unfold chunkSizes
  rw [List.getD_eq_getElem _ _ (by simpa using hi)]
  simp

/-! ### The claims -/

/-- C1: for every input sequence of length at least 10, the full pipeline
(splitIntoChunks, then sortChunksConcurrently, then mergeSortedChunks)
returns a permutation of the input (same multiset of values) that is
non-decreasing and has the same length as the input. -/
theorem claim1_pipeline_correct (l : List Int) (h : 10 ≤ l.length) :
    List.Perm (pipeline l) l ∧ List.Sorted (· ≤ ·) (pipeline l) ∧
      (pipeline l).length = l.length :=
  ⟨pipeline_perm l, pipeline_sorted l, pipeline_length l⟩

/-- Witness for C1 at a concrete input of length 10. -/
theorem claim1_witness :
    List.Perm (pipeline [3,1,4,1,5,9,2,6,5,3]) [3,1,4,1,5,9,2,6,5,3] ∧
      List.Sorted (· ≤ ·) (pipeline [3,1,4,1,5,9,2,6,5,3]) ∧
      (pipeline [3,1,4,1,5,9,2,6,5,3]).length = ([3,1,4,1,5,9,2,6,5,3] : List Int).length :=
  claim1_pipeline_correct [3,1,4,1,5,9,2,6,5,3] (by decide)

/-- C2: each merge round emits the numerically smallest not-yet-consumed head
element, ties going to the lowest-indexed chunk, and merging the chunks
[[1,4,7],[2,5],[3,6,8,9]] yields [1,2,3,4,5,6,7,8,9]. -/
theorem claim2_merge_selection :
    (∀ (rests : List (List Int)) (v : Int) (j : Nat), findMinChunk rests = some (v, j) →
        (j < rests.length ∧ (rests.getD j []).head? = some v) ∧
        (∀ i x, (rests.getD i []).head? = some x → v ≤ x) ∧
        (∀ i x, i < j → (rests.getD i []).head? = some x → v < x) ∧
        mergeSortedChunks rests = v :: mergeSortedChunks (behead rests j)) ∧
      mergeSortedChunks [[1,4,7],[2,5],[3,6,8,9]] = [1,2,3,4,5,6,7,8,9] := by
  constructor
  · intro rests v j hf
    obtain ⟨A, t, B, hre, hj⟩ := findMinChunk_decomp hf
    refine ⟨⟨?_, ?_⟩, ?_, ?_, mergeSortedChunks_step hf⟩
    · rw [hre, hj]
      simp only [List.length_append, List.length_cons]
      omega
    · rw [hre, hj, getD_append_length]
      rfl
    · intro i x hx
      obtain ⟨ti, hti⟩ := head?_some_ex hx
      have hi : i < rests.length := by
        by_contra hge
        rw [List.getD_eq_default _ _ (by omega)] at hti
        cases hti
      have hmem : rests.getD i [] ∈ rests := by
        rw [List.getD_eq_getElem _ _ hi]
        exact List.getElem_mem hi
      exact findMinChunk_le_heads hf _ hmem x ti hti
    · intro i x hij hx
      obtain ⟨ti, hti⟩ := head?_some_ex hx
      exact findMinChunk_lt_before hf i x ti hij hti
  · decide

/-- Witness for C2, applying the selection characterisation to the chunk list
[[2,2],[2]], whose first scan returns value 2 from chunk 0 (tie-break). -/
theorem claim2_witness :
    ((0 < ([[2,2],[2]] : List (List Int)).length ∧
        (([[2,2],[2]] : List (List Int)).getD 0 []).head? = some 2) ∧
      (∀ i x, (([[2,2],[2]] : List (List Int)).getD i []).head? = some x → 2 ≤ x) ∧
      (∀ i x, i < 0 → (([[2,2],[2]] : List (List Int)).getD i []).head? = some x → 2 < x) ∧
      mergeSortedChunks [[2,2],[2]] = 2 :: mergeSortedChunks (behead [[2,2],[2]] 0)) :=
  claim2_merge_selection.1 [[2,2],[2]] 2 0 (by decide)

/-- C3: splitIntoChunks creates exactly max(4, ceil(sqrt n)) chunks; in
particular 4 chunks for n = 10, 10 chunks for n = 100, 4 chunks for n = 5. -/
theorem claim3_chunk_count :
    (∀ l : List Int, (splitIntoChunks l).length = max 4 (ceilSqrt l.length)) ∧
      (splitIntoChunks (List.replicate 10 (0 : Int))).length = 4 ∧
      (splitIntoChunks (List.replicate 100 (0 : Int))).length = 10 ∧
      (splitIntoChunks (List.replicate 5 (0 : Int))).length = 4 := by
  refine ⟨?_, ?_, ?_, ?_⟩
  · intro l
    rw [length_splitIntoChunks, numChunksFor_eq_max]
  · rw [length_splitIntoChunks, List.length_replicate, numChunksFor_ten]
  · rw [length_splitIntoChunks, List.length_replicate, numChunksFor_hundred]
  · rw [length_splitIntoChunks, List.length_replicate, numChunksFor_five]

/-- C4: with base = n / numChunks and remainder = n % numChunks, chunk i has
base+1 elements for i < remainder and base elements otherwise, the chunks
concatenate to the input in original order, and a length-10 input gets chunk
sizes [3,3,2,2]. -/
theorem claim4_chunk_sizes (l : List Int) :
    (∀ i, i < numChunksFor l.length →
        ((splitIntoChunks l).getD i []).length =
          l.length / numChunksFor l.length +
            (if i < l.length % numChunksFor l.length then 1 else 0)) ∧
      (splitIntoChunks l).flatten = l ∧
      (l.length = 10 → (splitIntoChunks l).map List.length = [3, 3, 2, 2]) := by
  refine ⟨?_, flatten_splitIntoChunks l, ?_⟩
  · intro i hi
    rw [length_getD_split, map_length_splitIntoChunks, chunkSizes_getD _ _ _ hi]
  · intro h10
    rw [map_length_splitIntoChunks, h10, numChunksFor_ten]
    decide

/-- Witness for C4 at the concrete length-10 input 0,...,9. -/
theorem claim4_witness :
    (splitIntoChunks [0,1,2,3,4,5,6,7,8,9]).map List.length = [3, 3, 2, 2] :=
  (claim4_chunk_sizes [0,1,2,3,4,5,6,7,8,9]).2.2 (by decide)

/-- Counterexample to C5 as stated: in Go the chunks are sub-slices sharing
the backing array of the input and sort.Ints sorts in place, so running the
pipeline changes the sequence held by the caller; at the input 9,8,...,0 the array
afterwards differs from the original. -/
theorem claim5_counterexample :
    callerArrayAfterPipeline [9,8,7,6,5,4,3,2,1,0] ≠ [9,8,7,6,5,4,3,2,1,0] := by
  unfold callerArrayAfterPipeline splitIntoChunks
  rw [show ([9,8,7,6,5,4,3,2,1,0] : List Int).length = 10 from rfl, numChunksFor_ten]
  decide

/-- C5 amended: the sequence held by the caller is not unchanged; after the pipeline it
holds the in-place-sorted chunks: a permutation of the original consisting of
numChunksFor-many contiguous segments, each sorted ascending. -/
theorem claim5_amended (l : List Int) :
    List.Perm (callerArrayAfterPipeline l) l ∧
      ∃ cs : List (List Int), callerArrayAfterPipeline l = cs.flatten ∧
        cs.length = numChunksFor l.length ∧ ∀ c ∈ cs, List.Sorted (· ≤ ·) c := by
  refine ⟨callerArrayAfterPipeline_perm l,
    sortChunksConcurrently (splitIntoChunks l), rfl, ?_, ?_⟩
  · unfold sortChunksConcurrently
    rw [List.length_map, length_splitIntoChunks]
  · intro c hc
    simp only [sortChunksConcurrently, List.mem_map] at hc
    rcases hc with ⟨c0, _, rfl⟩
    exact sortInts_sorted c0

/-- C6: applying the pipeline to an already non-decreasing input of length at
least 10 returns exactly the same sequence. -/
theorem claim6_sorted_identity (l : List Int) (h10 : 10 ≤ l.length)
    (hs : List.Sorted (· ≤ ·) l) : pipeline l = l :=
  pipeline_eq_of_sorted hs

/-- Witness for C6 at the sorted input 0,...,9. -/
theorem claim6_witness : pipeline [0,1,2,3,4,5,6,7,8,9] = [0,1,2,3,4,5,6,7,8,9] :=
  claim6_sorted_identity [0,1,2,3,4,5,6,7,8,9] (by decide) (by decide)

/-- C7: runRandom errors exactly when N < 10, and for N ≥ 10 it succeeds,
generating exactly N integers, each in [0, 1000), and passing them to the
pipeline. -/
theorem claim7_runRandom (n : Int) (g : Nat → Nat) :
    ((∃ e, runRandom n g = Except.error e) ↔ n < 10) ∧
      (10 ≤ n →
        runRandom n g = Except.ok (generateRandomNumbers n.toNat g,
            pipeline (generateRandomNumbers n.toNat g)) ∧
          (generateRandomNumbers n.toNat g).length = n.toNat ∧
          ∀ x ∈ generateRandomNumbers n.toNat g, 0 ≤ x ∧ x < 1000) := by
  constructor
  · unfold runRandom
    by_cases h : n < 10
    · simp [h]
    · simp [h]
  · intro h
    refine ⟨?_, ?_, ?_⟩
    · unfold runRandom
      rw [if_neg (by omega)]
    · unfold generateRandomNumbers
      simp
    · intro x hx
      unfold generateRandomNumbers at hx
      simp only [List.mem_map] at hx
      rcases hx with ⟨i, _, rfl⟩
      unfold randIntn
      constructor
      · exact_mod_cast Nat.zero_le _
      · exact_mod_cast Nat.mod_lt _ (by norm_num)

/-- Witness for C7 at N = 12 with the identity random stream. -/
theorem claim7_witness :
    runRandom 12 (fun i => i) = Except.ok (generateRandomNumbers (12 : Int).toNat (fun i => i),
        pipeline (generateRandomNumbers (12 : Int).toNat (fun i => i))) ∧
      (generateRandomNumbers (12 : Int).toNat (fun i => i)).length = (12 : Int).toNat ∧
      ∀ x ∈ generateRandomNumbers (12 : Int).toNat (fun i => i), 0 ≤ x ∧ x < 1000 :=
  (claim7_runRandom 12 (fun i => i)).2 (by decide)

/-- C8: readNumbersFromFile skips blank lines and errors exactly when some
non-blank line fails integer parsing; on success it returns exactly the
parsed values of the non-blank lines; in directory mode every output file
comes from an input that read successfully with at least 10 integers (a
failing input contributes no output); and runInputFile fails when fewer than
10 integers are read. -/
theorem claim8_input_errors :
    (∀ lines : List String,
        ((∃ e, readNumbersFromFile lines = Except.error e) ↔
          ∃ l ∈ lines, l.trim ≠ "" ∧ atoi l.trim = none)) ∧
      (∀ (lines : List String) (nums : List Int),
        readNumbersFromFile lines = Except.ok nums →
          nums = lines.filterMap (fun l => if l.trim = "" then none else atoi l.trim)) ∧
      (∀ (files : List (String × List String)) (name : String) (out : List Int),
        (name, out) ∈ (runDirectory files).1 →
          ∃ lines nums, (name, lines) ∈ files ∧
            readNumbersFromFile lines = Except.ok nums ∧ 10 ≤ nums.length ∧
            out = pipeline nums) ∧
      (∀ (lines : List String) (nums : List Int),
        readNumbersFromFile lines = Except.ok nums → nums.length < 10 →
          runInputFile lines =
            Except.error "input file must contain at least 10 valid integers") :=
  ⟨readNumbersFromFile_error_iff, readNumbersFromFile_ok, runDirectory_outputs,
    fun _ _ h hl => runInputFile_short h hl⟩

/-- Witness for C8: an empty file reads zero integers and runInputFile rejects
it for having fewer than 10. -/
theorem claim8_witness :
    runInputFile [] = Except.error "input file must contain at least 10 valid integers" :=
  claim8_input_errors.2.2.2 [] [] rfl (by decide)

/-- C10: for every list of chunks whatsoever (empty, unsorted, whatever),
mergeSortedChunks terminates with a list whose length is the sum of the chunk
lengths; indeed it emits exactly the elements of the chunks (a permutation of
their concatenation), consuming each cursor exactly to the end of its chunk. -/
theorem claim10_merge_total (chunks : List (List Int)) :
    (mergeSortedChunks chunks).length = (chunks.map List.length).sum ∧
      List.Perm (mergeSortedChunks chunks) chunks.flatten :=
  ⟨mergeSortedChunks_length chunks, mergeSortedChunks_perm chunks⟩
